import Mathlib

/-
Verification development for the maym terminal music player.

The Rust source (src/queue.rs, src/player.rs) is shallowly embedded below.
Conventions used throughout:

* `usize` / `u8` are modelled as `Nat`; `u8::saturating_add` / `saturating_sub`
  coincide with the `Nat` operations used (see the comments at `Player.i_vol`).
* `f32` samples, gains and second-valued durations are modelled as `ℚ`.  Every
  numeric fact proved below only involves dyadic rationals that are exactly
  representable and exactly computed in `f32` (e.g. `50.0 / 100.0 = 0.5`,
  `0.5 * 0.5 * 0.5 = 0.125`), so the `ℚ` model is faithful on these values.
* File-system and decoder I/O (directory scans, `creek` disk streams, the
  `rubato` resampler) are external to the repository; they are parameters of
  the model: a directory scan result is passed in as a track list, a disk
  stream carries its upcoming reads as data, and the resampler built for a
  stream is an opaque function field.
* `&mut self` methods become pure functions `State → State × outputs`; the
  track handed to `player.replace` and the messages pushed on the SPSC
  channels are returned alongside the new state.
* A Rust index-out-of-bounds panic (e.g. `self.tracks[index]`) is modelled by
  returning the unchanged state together with `none`; every theorem that
  relies on an indexing step carries the bound that makes the Rust code
  panic-free.
-/

/-- Playback transport state (player.rs, `PlaybackStatus`). -/
inductive PlaybackStatus where
  | Paused
  | Play
deriving DecidableEq, Repr

/-- player.rs, `PlaybackStatus::invert`. -/
def PlaybackStatus.invert : PlaybackStatus → PlaybackStatus
  | .Paused => .Play
  | .Play => .Paused

/-- A track is identified by its path (queue.rs, `Track`): `PartialEq` on
`Track` compares only `self.0.path`, and that equality is all the queue logic
uses.  Tag metadata does not participate in any claim. -/
structure Track where
  path : String
deriving DecidableEq, Repr

/-- queue.rs, `QueueError`. -/
inductive QueueError where
  | NoTrack (path : String)
  | NoTracks
  | IsDirectory (path : String)
  | OutOfBounds
  | NotADirectory (path : String)
  | IoError
deriving DecidableEq, Repr

/-- `Iterator::position` as used by `select_path` / `with_state`:
index of the first element satisfying the predicate. -/
def listPosition (p : Track → Bool) : List Track → Option Nat
  | [] => none
  | t :: ts => if p t then some 0 else (listPosition p ts).map (· + 1)

/-- queue.rs, `History`: an `ArrayVec<usize, 100>` of visited indices plus a
cursor.  The capacity 100 is fixed by the type. -/
structure History where
  queue : List Nat
  index : Nat
deriving DecidableEq, Repr

/-- The `ArrayVec` capacity from the source type `ArrayVec<usize, 100>`. -/
def History.capacity : Nat := 100

/-- queue.rs, `History::new`. -/
def History.empty : History := { queue := [], index := 0 }

/-- queue.rs, `History::push`: no-op on a duplicate of the last entry;
when full, `rotate_left(1)` then `pop` (dropping what is now the last
element, i.e. the previously oldest entry) before appending; the cursor is
set to the new last position. -/
def History.push (h : History) (value : Nat) : History :=
  if h.queue.getLast? = some value then h
  else
    let q0 := if h.queue.length = History.capacity
      then ((h.queue.rotate 1).dropLast)
      else h.queue
    let q := q0 ++ [value]
    { queue := q, index := q.length - 1 }

/-- queue.rs, `History::clear`. -/
def History.clear (_ : History) : History := { queue := [], index := 0 }

/-- queue.rs, `History::next`: `self.queue.get(self.index + 1)?`, then move
the cursor forward and return the entry. -/
def History.next (h : History) : Option (Nat × History) :=
  (h.queue[h.index + 1]?).map (fun v => (v, { h with index := h.index + 1 }))

/-- queue.rs, `History::prev`: `self.index.checked_sub(1)?`, move the cursor
back and return `self.queue[prev]`.  The Rust indexing panics when the cursor
is beyond the buffer; that (unreachable under the data-model invariant) case
is modelled as `none`. -/
def History.prev (h : History) : Option (Nat × History) :=
  match h.index with
  | 0 => none
  | i + 1 => (h.queue[i]?).map (fun v => (v, { h with index := i }))

/-- queue.rs, `Queue`. -/
structure Queue where
  path : Option String
  tracks : List Track
  history : History
  current : Option Nat
  shuffle : Bool
deriving DecidableEq, Repr

/-- queue.rs, `Queue::with_state`: the directory scan (`Track::directory`) is
I/O, so its result is the parameter `tracks` (the empty list when the state
has no existing queue path); `current` is the position of the persisted state
track in the list, and when present it is pushed onto a fresh history. -/
def Queue.with_state (path : Option String) (tracks : List Track)
    (stateTrack : Option Track) (shuffle : Bool) : Queue :=
  let current := stateTrack.bind (fun cur => listPosition (fun t => t.path = cur.path) tracks)
  let history := match current with
    | some index => History.empty.push index
    | none => History.empty
  { path := path, tracks := tracks, history := history, current := current, shuffle := shuffle }

/-- queue.rs, `Queue::shuffle` (the toggle method; renamed, since `shuffle`
names the struct field here): clears the history and flips the flag. -/
def Queue.shuffle_toggle (q : Queue) : Queue :=
  { q with history := q.history.clear, shuffle := !q.shuffle }

/-- queue.rs, `Queue::queue`: `Track::directory` is I/O, so the op takes its
outcome: `none` models a `QueueError` from the scan (early return, queue
untouched), `some tracks` the successful scan. -/
def Queue.queueDir (q : Queue) (path : String) (scan : Option (List Track)) :
    Queue × Option QueueError :=
  match scan with
  | none => (q, some (QueueError.NotADirectory path))
  | some tracks =>
    ({ q with path := some path, tracks := tracks, current := none,
              history := q.history.clear }, none)

/-- queue.rs, `Queue::replace`: `player.replace(&self.tracks[index])` then
`self.current = Some(index)`.  The handed-over track is the second component;
an out-of-bounds `index` (a Rust panic) yields `none` with the state
unchanged. -/
def Queue.replace (q : Queue) (index : Nat) : Queue × Option Track :=
  match q.tracks[index]? with
  | some t => ({ q with current := some index }, some t)
  | none => (q, none)

/-- queue.rs, `Queue::select_idx`: bounds-check, then `replace`, then clear
the history.  The `Except` payload is the track handed to the player. -/
def Queue.select_idx (q : Queue) (index : Nat) : Queue × Except QueueError Track :=
  match q.tracks[index]? with
  | none => (q, .error QueueError.OutOfBounds)
  | some t =>
    let q1 := (q.replace index).1
    ({ q1 with history := q1.history.clear }, .ok t)

/-- queue.rs, `Queue::select_path`: find the track by path, then `replace`,
then clear the history.  The inner `none` arm is unreachable — `listPosition`
only returns in-bounds indices (`listPosition_lt_length`); it stands for the
indexing in `replace`, which cannot panic here. -/
def Queue.select_path (q : Queue) (path : String) : Queue × Except QueueError Track :=
  match listPosition (fun t => t.path = path) q.tracks with
  | none => (q, .error (QueueError.NoTrack path))
  | some index =>
    match q.tracks[index]? with
    | none => (q, .error (QueueError.NoTrack path))
    | some t =>
      let q1 := (q.replace index).1
      ({ q1 with history := q1.history.clear }, .ok t)

/-- queue.rs, `Queue::next_track_sequential`:
`self.current.map_or(0, |idx| (idx + 1) % self.tracks.len())` on a non-empty
list. -/
def Queue.next_track_sequential (q : Queue) : Option Nat :=
  if q.tracks.length = 0 then none
  else some (match q.current with
    | some idx => (idx + 1) % q.tracks.length
    | none => 0)

/-- queue.rs, `Queue::last_track_sequential`: on a non-empty list, map the
current index to `len - 1` when it is `0` and to `idx - 1` otherwise
(`saturating_sub` coincides with `Nat` subtraction). -/
def Queue.last_track_sequential (q : Queue) : Option Nat :=
  if q.tracks.length = 0 then none
  else q.current.map (fun idx =>
    if idx = 0 then q.tracks.length - 1 else idx - 1)

/-- One acceptance pass of the `loop` in `next_track_shuffle`: the RNG draws
(`rand::random_range(..len)`) are supplied as the list `draws`; a draw is
accepted iff `self.current.is_none_or(|current| current != track)`.  An
exhausted draw list models the (probability-zero) case of the Rust loop never
accepting. -/
def pickShuffle (current : Option Nat) : List Nat → Option Nat
  | [] => none
  | d :: ds =>
    match current with
    | none => some d
    | some c => if c ≠ d then some d else pickShuffle current ds

/-- queue.rs, `Queue::next_track_shuffle`: `None` on an empty list, `Some(0)`
when `len <= 1`, otherwise the first accepted random draw. -/
def Queue.next_track_shuffle (q : Queue) (draws : List Nat) : Option Nat :=
  if q.tracks.length = 0 then none
  else if q.tracks.length ≤ 1 then some 0
  else pickShuffle q.current draws

/-- queue.rs, `Queue::next_track`: history replay first; else sequential when
shuffle is off; else a shuffle pick, which (alone among the three branches) is
pushed onto the history. -/
def Queue.next_track (q : Queue) (draws : List Nat) : Option Nat × Queue :=
  match q.history.next with
  | some (t, h') => (some t, { q with history := h' })
  | none =>
    if !q.shuffle then (q.next_track_sequential, q)
    else
      match q.next_track_shuffle draws with
      | some index => (some index, { q with history := q.history.push index })
      | none => (none, q)

/-- queue.rs, `Queue::next`: pick with `next_track`, then `replace`. -/
def Queue.next (q : Queue) (draws : List Nat) : Queue × Option Track :=
  match q.next_track draws with
  | (some t, q') => q'.replace t
  | (none, q') => (q', none)

/-- queue.rs, `Queue::last`: pop the history cursor; else, when shuffle is
off, the sequential predecessor; else give up.  A found index is handed to
`replace`. -/
def Queue.lastOp (q : Queue) : Queue × Option Track :=
  let step : Option Nat × Queue :=
    match q.history.prev with
    | some (t, h') => (some t, { q with history := h' })
    | none =>
      if !q.shuffle then (q.last_track_sequential, q)
      else (none, q)
  match step with
  | (some i, q') => q'.replace i
  | (none, q') => (q', none)

/-- One queue operation, for stating state-machine invariants.  `queueDir`
carries the (I/O-produced) outcome of the directory scan; `nextStep` carries
the RNG draws consumed by a possible shuffle pick. -/
inductive QueueOp where
  | queueDir (path : String) (scan : Option (List Track))
  | selectIdx (index : Nat)
  | selectPath (path : String)
  | nextStep (draws : List Nat)
  | lastStep
  | shuffleToggle
deriving Repr

/-- Apply one operation to the queue (discarding the track handed to the
player and any error, which leave the state exactly as the method left it). -/
def Queue.step (q : Queue) : QueueOp → Queue
  | .queueDir path scan => (q.queueDir path scan).1
  | .selectIdx i => (q.select_idx i).1
  | .selectPath p => (q.select_path p).1
  | .nextStep draws => (q.next draws).1
  | .lastStep => q.lastOp.1
  | .shuffleToggle => q.shuffle_toggle

/-- Apply a list of operations in order. -/
def Queue.steps (q : Queue) : List QueueOp → Queue
  | [] => q
  | op :: ops => (q.step op).steps ops

/-- Well-formedness of one op against the state it runs in: RNG draws for a
`next` are what `rand::random_range(..self.tracks.len())` guarantees, namely
below the track-list length.  All other ops are unconstrained. -/
def QueueOp.wf (q : Queue) : QueueOp → Bool
  | .nextStep draws => draws.all (fun d => d < q.tracks.length)
  | _ => true

/-- Well-formedness of an op sequence, each op against the state it sees. -/
def Queue.wfSteps (q : Queue) : List QueueOp → Bool
  | [] => true
  | op :: ops => op.wf q && (q.step op).wfSteps ops

/-- The data-model invariant of spec §3 for `Queue`: the current index, when
present, is in bounds, and so is every history entry. -/
def QueueInv (q : Queue) : Prop :=
  (∀ i, q.current = some i → i < q.tracks.length) ∧
  (∀ i ∈ q.history.queue, i < q.tracks.length)

/- ————————————————————————————————————————————————————————————————
player.rs: the audio engine (`Process`) and the control handle (`Player`).
———————————————————————————————————————————————————————————————— -/

/-- player.rs / creek, `ReadDiskStream`: the decoder is external I/O, so the
stream is modelled by its observable behaviour: readiness, rates and block
size, the sequence of upcoming `read` results (each a pair of channel slices;
for mono sources `read_channel(0)` is read twice, so the second component
repeats the first), the playhead frame, and two oracles — the block list that
a `seek` to a given frame would replay, and the resampler function `rubato`
would build for this stream. -/
structure DiskStream where
  ready : Bool
  sampleRate : Nat
  blockSize : Nat
  blocks : List (List ℚ × List ℚ)
  playheadFrame : Nat
  seekFn : Nat → List (List ℚ × List ℚ)
  resampleFn : List ℚ → List ℚ → List ℚ × List ℚ

/-- player.rs, `Process::playhead`: playhead frame over sample rate, in
seconds. -/
def DiskStream.playheadSecs (s : DiskStream) : ℚ :=
  (s.playheadFrame : ℚ) / (s.sampleRate : ℚ)

/-- player.rs, `ToProcess` (the stream of a `UseStream` is a `DiskStream`
model; durations are seconds in `ℚ`). -/
inductive ToProcess where
  | UseStream (stream : DiskStream) (status : PlaybackStatus)
  | Status (status : PlaybackStatus)
  | Volume (volume : ℚ)
  | SeekTo (duration : ℚ)

/-- player.rs, `FromProcess`. -/
inductive FromProcess where
  | Playhead (duration : ℚ)
  | IsDone

/-- player.rs, `Process` (the channel ends live outside the model: incoming
messages are arguments of `process`, outgoing reports are returned).  The
pre-allocated `resample_buffer_in/out` are capacity bookkeeping with no
observable content and are represented by the padding done in
`Process.processBlock`. -/
structure Process where
  stream : Option DiskStream
  buffer : List ℚ
  configSampleRate : Nat
  resampler : Option (List ℚ → List ℚ → List ℚ × List ℚ)
  status : PlaybackStatus
  volume : ℚ
  done : Bool

/-- player.rs, `Process::new`: no stream, empty buffer, paused, volume 0.45,
not done. -/
def Process.new (configSampleRate : Nat) : Process :=
  { stream := none, buffer := [], configSampleRate := configSampleRate,
    resampler := none, status := .Paused, volume := 45 / 100, done := false }

/-- player.rs, `Process::silence`: overwrite every sample of `data` with
`0.0`. -/
def Process.silence (data : List ℚ) : List ℚ :=
  data.map (fun _ => 0)

/-- The per-frame interleave `push_back(ch1[i]); push_back(ch2[i])` of the
fill loop. -/
def interleave (ch1 ch2 : List ℚ) : List ℚ :=
  (ch1.zip ch2).flatMap (fun ab => [ab.1, ab.2])

/-- The `clear / extend_from_slice / resize(block_size, 0.0)` dance that pads
a short final channel slice with zeros up to the block size before
resampling. -/
def padTo (n : Nat) (l : List ℚ) : List ℚ :=
  if l.length < n then l ++ List.replicate (n - l.length) 0 else l

/-- One iteration body of the fill loop: with a resampler, pad both channels
to the block size, resample, and interleave the output channels; without one,
interleave the decoded frames directly. -/
def Process.processBlock (resampler : Option (List ℚ → List ℚ → List ℚ × List ℚ))
    (blockSize : Nat) (ch1 ch2 : List ℚ) : List ℚ :=
  match resampler with
  | some f =>
    let out := f (padTo blockSize ch1) (padTo blockSize ch2)
    interleave out.1 out.2
  | none => interleave ch1 ch2

/-- Result of the fill loop: either the buffer reached `need` samples (with
the unread blocks and the number of source frames consumed), or the stream
hit `ReadError::EndOfFile` mid-fill (partial buffer contents are kept, as in
the source, where `self.buffer` retains earlier appends). -/
inductive FillResult where
  | filled (buffer : List ℚ) (rest : List (List ℚ × List ℚ)) (framesRead : Nat)
  | eof (buffer : List ℚ) (framesRead : Nat)

/-- player.rs, the `while self.buffer.len() < data.len()` fill loop of
`Process::process`, recursing over the stream's remaining reads. -/
def fillBuffer (resampler : Option (List ℚ → List ℚ → List ℚ × List ℚ))
    (blockSize : Nat) :
    List ℚ → List (List ℚ × List ℚ) → Nat → FillResult
  | buffer, blocks, need =>
    if need ≤ buffer.length then .filled buffer blocks 0
    else
      match blocks with
      | [] => .eof buffer 0
      | (ch1, ch2) :: rest =>
        match fillBuffer resampler blockSize
            (buffer ++ Process.processBlock resampler blockSize ch1 ch2) rest need with
        | .filled b r fr => .filled b r (fr + ch1.length)
        | .eof b fr => .eof b (fr + ch1.length)

/-- player.rs, the `ToProcess` match arms at the top of `Process::process`. -/
def Process.handleMsg (p : Process) (msg : ToProcess) : Process × List FromProcess :=
  match msg with
  | .UseStream stream status =>
    let reports := [FromProcess.Playhead stream.playheadSecs]
    let resampler :=
      if p.configSampleRate ≠ stream.sampleRate then some stream.resampleFn else none
    ({ p with stream := some stream, buffer := [], resampler := resampler,
              status := status, done := false }, reports)
  | .Status s => ({ p with status := s }, [])
  | .Volume v => ({ p with volume := v }, [])
  | .SeekTo d =>
    match p.stream with
    | none => (p, [])
    | some stream =>
      let frame : Nat := (d * (stream.sampleRate : ℚ)).floor.toNat
      let stream' := { stream with playheadFrame := frame, blocks := stream.seekFn frame }
      ({ p with stream := some stream', buffer := [] }, [FromProcess.Playhead d])

/-- Drain all pending messages in FIFO order, accumulating the reports. -/
def Process.drain (p : Process) : List ToProcess → Process × List FromProcess
  | [] => (p, [])
  | msg :: msgs =>
    let (p', rep) := p.handleMsg msg
    let (p'', reps) := p'.drain msgs
    (p'', rep ++ reps)

/-- player.rs, the rendering half of `Process::process` (everything after the
message drain): silence when done / not ready / paused; otherwise fill, copy
into `data`, and apply the cubic gain `sample *= volume.powi(3)`.  With no
stream the `if let` falls through and `data` is left untouched. -/
def Process.render (p : Process) (data : List ℚ) : Process × List ℚ × List FromProcess :=
  match p.stream with
  | none => (p, data, [])
  | some stream =>
    if p.done || !stream.ready then
      (p, Process.silence data, [])
    else if p.status = .Paused then
      (p, Process.silence data, [])
    else
      match fillBuffer p.resampler stream.blockSize p.buffer stream.blocks data.length with
      | .eof buf framesRead =>
        let stream' := { stream with
          blocks := [],
          playheadFrame := stream.playheadFrame + framesRead }
        ({ p with stream := some stream', buffer := buf, done := true },
         Process.silence data, [FromProcess.IsDone])
      | .filled buf rest framesRead =>
        let out := (buf.take data.length).map (fun sample => sample * p.volume ^ 3)
        let stream' := { stream with
          blocks := rest,
          playheadFrame := stream.playheadFrame + framesRead }
        ({ p with stream := some stream', buffer := buf.drop data.length },
         out, [FromProcess.Playhead stream'.playheadSecs])

/-- player.rs, `Process::process`: drain all pending control messages, then
render into `data`.  Returns the new engine state, the contents of `data` on
return, and the reports pushed to the status channel. -/
def Process.process (p : Process) (msgs : List ToProcess) (data : List ℚ) :
    Process × List ℚ × List FromProcess :=
  let (p', reports) := p.drain msgs
  let (p'', out, reports') := p'.render data
  (p'', out, reports ++ reports')

/-- player.rs, `Player` (control-thread shadow state; the producer end of the
command channel is modelled by returning the messages each mutator pushes;
`rtrb` can drop a push when the channel is full, which the model elides — no
claim concerns channel capacity). -/
structure Player where
  muted : Bool
  volume : Nat
  done : Bool
  status : PlaybackStatus
  elapsed : Option ℚ
  duration : Option ℚ

/-- player.rs, `Player::new` (the cpal device setup is external): unmuted,
volume 45, paused, nothing playing. -/
def Player.new : Player :=
  { muted := false, volume := 45, done := false, status := .Paused,
    elapsed := none, duration := none }

/-- player.rs, `Player::mute`: flip the flag and send gain `0.0` when now
muted, else `volume / 100`; the stored volume is not touched. -/
def Player.mute (p : Player) : Player × List ToProcess :=
  let muted := !p.muted
  let vol : ℚ := if muted then 0 else (p.volume : ℚ) / 100
  ({ p with muted := muted }, [ToProcess.Volume vol])

/-- player.rs, `Player::i_vol`: `u8::min(100, volume.saturating_add(amt))`.
For `Nat` arguments, `min 100 (v + amt)` agrees with the `u8` computation:
when `v + amt ≤ 255` the saturation does nothing, and when it saturates to
`255` both sides are `100`.  The new gain `vol / 100` is sent regardless of
the mute flag. -/
def Player.i_vol (p : Player) (amt : Nat) : Player × List ToProcess :=
  let vol := min 100 (p.volume + amt)
  ({ p with volume := vol }, [ToProcess.Volume ((vol : ℚ) / 100)])

/-- player.rs, `Player::d_vol`: `volume.saturating_sub(amt)` (which is `Nat`
subtraction), gain sent regardless of the mute flag. -/
def Player.d_vol (p : Player) (amt : Nat) : Player × List ToProcess :=
  let vol := p.volume - amt
  ({ p with volume := vol }, [ToProcess.Volume ((vol : ℚ) / 100)])

/-- player.rs, `Player::set_volume` (mpris feature): store `vol` and send
`vol / 100`, regardless of the mute flag. -/
def Player.set_volume (p : Player) (vol : Nat) : Player × List ToProcess :=
  ({ p with volume := vol }, [ToProcess.Volume ((vol : ℚ) / 100)])

/-- player.rs, `Player::toggle`. -/
def Player.toggle (p : Player) : Player × List ToProcess :=
  let status := p.status.invert
  ({ p with status := status }, [ToProcess.Status status])

/- ————————————————————————————————————————————————————————————————
Concrete sample states used to evaluate the theorems on closed inputs.
———————————————————————————————————————————————————————————————— -/

/-- A three-track queue, first track playing, shuffle off, empty history. -/
def sampleSeqQueue : Queue :=
  { path := none, tracks := [⟨"a"⟩, ⟨"b"⟩, ⟨"c"⟩], history := History.empty,
    current := some 0, shuffle := false }

/-- A three-track queue whose history cursor has a forward entry (the user
went back from track 2 to track 0). -/
def sampleReplayQueue : Queue :=
  { path := none, tracks := [⟨"a"⟩, ⟨"b"⟩, ⟨"c"⟩], history := ⟨[0, 2], 0⟩,
    current := some 0, shuffle := true }

/-- A three-track queue with shuffle on and track 1 playing. -/
def sampleShuffleQueue : Queue :=
  { path := none, tracks := [⟨"a"⟩, ⟨"b"⟩, ⟨"c"⟩], history := History.empty,
    current := some 1, shuffle := true }

/-- A one-track queue with shuffle on. -/
def sampleSingleQueue : Queue :=
  { path := none, tracks := [⟨"a"⟩], history := History.empty,
    current := some 0, shuffle := true }

/-- A history holding a full ring of 100 entries, cursor at the end. -/
def sampleFullHistory : History := ⟨List.range 100, 99⟩

/-- A ready stereo stream delivering one block of two frames. -/
def sampleStream : DiskStream :=
  { ready := true, sampleRate := 48000, blockSize := 4,
    blocks := [([1, 2], [3, 4])], playheadFrame := 0,
    seekFn := fun _ => [], resampleFn := fun a b => (a, b) }

/-- A playing engine at gain `50 / 100` whose internal buffer already holds
two samples. -/
def sampleHalfVolProcess : Process :=
  { stream := some sampleStream, buffer := [1, 2], configSampleRate := 48000,
    resampler := none, status := .Play, volume := 50 / 100, done := false }

/-- A paused engine with an active stream. -/
def samplePausedProcess : Process :=
  { stream := some sampleStream, buffer := [], configSampleRate := 48000,
    resampler := none, status := .Paused, volume := 1, done := false }

/-- A muted player at the default stored volume 45. -/
def sampleMutedPlayer : Player := { Player.new with muted := true }

/-- An op sequence exercising every `Queue` mutator. -/
def sampleOps : List QueueOp :=
  [QueueOp.nextStep [], QueueOp.shuffleToggle, QueueOp.nextStep [2, 0],
   QueueOp.lastStep, QueueOp.selectIdx 2,
   QueueOp.queueDir "q" (some [⟨"a"⟩]), QueueOp.nextStep []]

/-- The initial queue of the op-sequence evaluation: restored from a
persisted state whose track is the second of three. -/
def sampleInitQueue : Queue :=
  Queue.with_state (some "p") [⟨"a"⟩, ⟨"b"⟩, ⟨"c"⟩] (some ⟨"b"⟩) false

/- ————————————————————————————————————————————————————————————————
Theorems.  General-purpose lemmas first, then one theorem per claim.
———————————————————————————————————————————————————————————————— -/

theorem rotate_one_dropLast (x : Nat) (xs : List Nat) :
    ((x :: xs).rotate 1).dropLast = xs := by
  have h1 : (x :: xs).rotate 1 = xs ++ [x] := by
    simpa using List.rotate_cons_succ xs x 0
  rw [h1, List.dropLast_concat]

/-- Claim C4: on a history whose cursor has a forward entry, `next`
(advance) followed by `prev` (retreat) restores the entire history state —
cursor included — and the retreat returns the entry that was current before
the advance; symmetrically, on a valid cursor with a predecessor, `prev`
followed by `next` restores the state and the second call returns the
pre-retreat current entry. -/
theorem history_advance_retreat_roundtrip (h : History) :
    (∀ v₁ h₁, h.next = some (v₁, h₁) →
      h₁.prev = some (h.queue.getD h.index 0, h) ∧
      h.queue[h.index]? = some (h.queue.getD h.index 0)) ∧
    (h.index < h.queue.length → ∀ v₁ h₁, h.prev = some (v₁, h₁) →
      h₁.next = some (h.queue.getD h.index 0, h) ∧
      h.queue[h.index]? = some (h.queue.getD h.index 0)) := by
  constructor
  · intro v₁ h₁ hnext
    rw [History.next, Option.map_eq_some'] at hnext
    obtain ⟨v, hv, heq⟩ := hnext
    obtain ⟨rfl, rfl⟩ := Prod.mk.inj heq
    have hlt : h.index + 1 < h.queue.length := (List.getElem?_eq_some.1 hv).1
    have hlt' : h.index < h.queue.length := Nat.lt_of_succ_lt hlt
    have hget : h.queue[h.index]? = some (h.queue.getD h.index 0) := by
      rw [List.getElem?_eq_getElem hlt', List.getD_eq_getElem _ _ hlt']
    refine ⟨?_, hget⟩
    show ((h.queue[h.index]?).map fun v => (v, ({ queue := h.queue, index := h.index } : History)))
      = some (h.queue.getD h.index 0, h)
    rw [hget]
    rfl
  · intro hlt v₁ h₁ hprev
    rw [History.prev] at hprev
    cases hI : h.index with
    | zero => rw [hI] at hprev; exact absurd hprev (by simp)
    | succ i =>
      rw [hI] at hprev
      rw [Option.map_eq_some'] at hprev
      obtain ⟨v, hv, heq⟩ := hprev
      obtain ⟨rfl, rfl⟩ := Prod.mk.inj heq
      have hlt2 : i + 1 < h.queue.length := hI ▸ hlt
      have hget : h.queue[i + 1]? = some (h.queue.getD (i + 1) 0) := by
        rw [List.getElem?_eq_getElem hlt2, List.getD_eq_getElem _ _ hlt2]
      constructor
      · show ((h.queue[i + 1]?).map fun v => (v, ({ queue := h.queue, index := i + 1 } : History)))
          = some (h.queue.getD (i + 1) 0, h)
        rw [hget, ← hI]
        rfl
      · exact hget

theorem history_roundtrip_witness :
    (History.mk [5, 7, 9] 2).prev = some (7, History.mk [5, 7, 9] 1) ∧
    (History.mk [5, 7, 9] 0).next = some (7, History.mk [5, 7, 9] 1) := by
  have h1 := (history_advance_retreat_roundtrip (History.mk [5, 7, 9] 1)).1 9
    (History.mk [5, 7, 9] 2) (by decide)
  have h2 := (history_advance_retreat_roundtrip (History.mk [5, 7, 9] 1)).2 (by decide) 5
    (History.mk [5, 7, 9] 0) (by decide)
  exact ⟨h1.1, h2.1⟩

/-- Claim C5: `History::push i` is a no-op when `i` equals the last stored
entry; when the ring holds 100 entries (the `ArrayVec` capacity) a non-no-op
push evicts the oldest (front) entry, keeping the length at 100; and after
any non-no-op push the entry `i` is the last element and the cursor points at
it (`index + 1 = length`). -/
theorem history_push_spec (h : History) (i : Nat) :
    (h.queue.getLast? = some i → h.push i = h) ∧
    (h.queue.getLast? ≠ some i → h.queue.length = History.capacity →
      (h.push i).queue = h.queue.drop 1 ++ [i] ∧
      (h.push i).queue.length = History.capacity) ∧
    (h.queue.getLast? ≠ some i →
      (h.push i).queue.getLast? = some i ∧
      (h.push i).index + 1 = (h.push i).queue.length) := by
  refine ⟨fun hdup => by rw [History.push, if_pos hdup], ?_, ?_⟩
  · intro hdup hfull
    rw [History.push, if_neg hdup]
    cases hq : h.queue with
    | nil => rw [hq] at hfull; exact absurd hfull (by decide)
    | cons x xs =>
      rw [hq] at hfull
      simp only [hq, hfull, if_pos rfl, rotate_one_dropLast]
      constructor
      · rfl
      · have : xs.length + 1 = History.capacity := by simpa using hfull
        simpa using this
  · intro hdup
    rw [History.push, if_neg hdup]
    constructor
    · exact List.getLast?_concat _
    · simp

theorem history_push_witness :
    sampleFullHistory.queue.getLast? ≠ some 100 ∧
    (sampleFullHistory.push 100).queue = sampleFullHistory.queue.drop 1 ++ [100] ∧
    (sampleFullHistory.push 100).queue.length = History.capacity ∧
    (sampleFullHistory.push 100).queue.getLast? = some 100 ∧
    (sampleFullHistory.push 100).index + 1 = (sampleFullHistory.push 100).queue.length ∧
    (History.mk [5, 7] 1).push 7 = History.mk [5, 7] 1 := by
  have hfull := (history_push_spec sampleFullHistory 100).2.1 (by decide) (by decide)
  have hlast := (history_push_spec sampleFullHistory 100).2.2 (by decide)
  have hdup := (history_push_spec (History.mk [5, 7] 1) 7).1 (by decide)
  exact ⟨by decide, hfull.1, hfull.2, hlast.1, hlast.2, hdup⟩

theorem listPosition_lt_length {p : Track → Bool} :
    ∀ {l : List Track} {i : Nat}, listPosition p l = some i → i < l.length
  | [], i, h => by simp [listPosition] at h
  | t :: ts, i, h => by
    rw [listPosition] at h
    by_cases hp : p t
    · rw [if_pos hp] at h
      cases h
      simp
    · rw [if_neg hp, Option.map_eq_some'] at h
      obtain ⟨j, hj, rfl⟩ := h
      have := listPosition_lt_length hj
      simpa using this

theorem listPosition_eq_none_iff {p : Track → Bool} :
    ∀ {l : List Track}, listPosition p l = none ↔ ∀ t ∈ l, p t = false
  | [] => by simp [listPosition]
  | t :: ts => by
    rw [listPosition]
    by_cases hp : p t
    · simp [hp]
    · simp only [if_neg hp, Option.map_eq_none', listPosition_eq_none_iff (l := ts)]
      constructor
      · intro hall u hu
        rcases List.mem_cons.1 hu with rfl | hu
        · simpa using hp
        · exact hall u hu
      · intro hall u hu
        exact hall u (List.mem_cons_of_mem _ hu)

theorem listPosition_get {p : Track → Bool} :
    ∀ {l : List Track} {i : Nat}, listPosition p l = some i →
      ∃ t, l[i]? = some t ∧ p t = true
  | [], i, h => by simp [listPosition] at h
  | t :: ts, i, h => by
    rw [listPosition] at h
    by_cases hp : p t
    · rw [if_pos hp] at h
      cases h
      exact ⟨t, by simp, hp⟩
    · rw [if_neg hp, Option.map_eq_some'] at h
      obtain ⟨j, hj, rfl⟩ := h
      obtain ⟨u, hu, hpu⟩ := listPosition_get hj
      exact ⟨u, by simpa using hu, hpu⟩

theorem pickShuffle_ne {cur : Option Nat} :
    ∀ {ds : List Nat} {d : Nat}, pickShuffle cur ds = some d → cur ≠ some d
  | [], d, h => by simp [pickShuffle] at h
  | x :: ds, d, h => by
    cases cur with
    | none => simp
    | some c =>
      rw [pickShuffle] at h
      by_cases hc : c ≠ x
      · rw [if_pos hc] at h
        cases h
        simpa using hc
      · rw [if_neg hc] at h
        exact pickShuffle_ne h

theorem pickShuffle_mem {cur : Option Nat} :
    ∀ {ds : List Nat} {d : Nat}, pickShuffle cur ds = some d → d ∈ ds
  | [], d, h => by simp [pickShuffle] at h
  | x :: ds, d, h => by
    cases cur with
    | none =>
      rw [pickShuffle] at h
      cases h
      simp
    | some c =>
      rw [pickShuffle] at h
      by_cases hc : c ≠ x
      · rw [if_pos hc] at h
        cases h
        simp
      · rw [if_neg hc] at h
        exact List.mem_cons_of_mem _ (pickShuffle_mem h)

theorem replace_fields (q : Queue) (i : Nat) :
    ((q.replace i).1).history = q.history ∧ ((q.replace i).1).tracks = q.tracks ∧
      ((q.replace i).1).shuffle = q.shuffle := by
  cases hg : q.tracks[i]? <;> simp [Queue.replace, hg]

theorem replace_current (q : Queue) (i : Nat) (hi : i < q.tracks.length) :
    ((q.replace i).1).current = some i := by
  have hg : q.tracks[i]? = some q.tracks[i] := List.getElem?_eq_getElem hi
  unfold Queue.replace
  rw [hg]

theorem next_track_replay (q : Queue) (draws : List Nat) (v : Nat) (h' : History)
    (hn : q.history.next = some (v, h')) :
    q.next_track draws = (some v, { q with history := h' }) := by
  simp only [Queue.next_track, hn]

theorem next_track_seq (q : Queue) (draws : List Nat) (hn : q.history.next = none)
    (hsh : q.shuffle = false) :
    q.next_track draws = (q.next_track_sequential, q) := by
  simp only [Queue.next_track, hn, hsh, Bool.not_false, if_pos]

theorem next_track_shuffle_push (q : Queue) (draws : List Nat)
    (hn : q.history.next = none) (hsh : q.shuffle = true) (i : Nat)
    (hi : q.next_track_shuffle draws = some i) :
    q.next_track draws = (some i, { q with history := q.history.push i }) := by
  simp only [Queue.next_track, hn, hsh, hi, Bool.not_true, Bool.false_eq_true,
    if_false]

theorem next_of_next_track (q q' : Queue) (draws : List Nat) (i : Nat)
    (h : q.next_track draws = (some i, q')) :
    q.next draws = q'.replace i := by
  simp only [Queue.next, h]

theorem next_of_next_track_none (q q' : Queue) (draws : List Nat)
    (h : q.next_track draws = (none, q')) :
    q.next draws = (q', none) := by
  simp only [Queue.next, h]

theorem select_idx_ok (q : Queue) (i : Nat) (u : Track) (hu : q.tracks[i]? = some u) :
    q.select_idx i =
      ({ q with current := some i, history := History.empty }, Except.ok u) := by
  simp only [Queue.select_idx, Queue.replace, hu, History.clear, History.empty]

theorem select_idx_oob (q : Queue) (i : Nat) (hg : q.tracks[i]? = none) :
    q.select_idx i = (q, Except.error QueueError.OutOfBounds) := by
  simp only [Queue.select_idx, hg]

theorem select_path_found (q : Queue) (p : String) (j : Nat) (u : Track)
    (hpos : listPosition (fun t => t.path = p) q.tracks = some j)
    (hu : q.tracks[j]? = some u) :
    q.select_path p =
      ({ q with current := some j, history := History.empty }, Except.ok u) := by
  simp only [Queue.select_path, Queue.replace, hpos, hu, History.clear, History.empty]

theorem select_path_missing (q : Queue) (p : String)
    (hpos : listPosition (fun t => t.path = p) q.tracks = none) :
    q.select_path p = (q, Except.error (QueueError.NoTrack p)) := by
  simp only [Queue.select_path, hpos]

/-- Claim C1: `Queue::next` replays the history cursor's forward entry when
one exists (that entry becoming the current index), and otherwise, with
shuffle off and a non-empty track list, advances to `(current + 1) mod len`
(index `0` when no track is current), wrapping to `0` at the end. -/
theorem next_resolution (q : Queue) (draws : List Nat) :
    (∀ v h', q.history.next = some (v, h') → v < q.tracks.length →
      ((q.next draws).1).current = some v) ∧
    (q.history.next = none → q.shuffle = false → q.tracks.length ≠ 0 →
      ((q.next draws).1).current =
        some (match q.current with
              | some i => (i + 1) % q.tracks.length
              | none => 0)) := by
  constructor
  · intro v h' hn hv
    rw [next_of_next_track _ _ _ _ (next_track_replay q draws v h' hn)]
    exact replace_current { q with history := h' } v hv
  · intro hn hsh hne
    have hlen : 0 < q.tracks.length := Nat.pos_of_ne_zero hne
    have hseq : q.next_track_sequential =
        some (match q.current with
              | some i => (i + 1) % q.tracks.length
              | none => 0) := by
      unfold Queue.next_track_sequential
      rw [if_neg hne]
    have h2 := next_track_seq q draws hn hsh
    rw [hseq] at h2
    rw [next_of_next_track _ _ _ _ h2]
    refine replace_current _ _ ?_
    cases hc : q.current with
    | none => simpa using hlen
    | some idx => exact Nat.mod_lt _ hlen

theorem next_resolution_witness :
    (sampleReplayQueue.next []).1.current = some 2 ∧
    ({ sampleSeqQueue with current := some 2 }.next []).1.current = some 0 := by
  have h1 := (next_resolution sampleReplayQueue []).1 2 (History.mk [0, 2] 1)
    (by decide) (by decide)
  have h2 := (next_resolution { sampleSeqQueue with current := some 2 } []).2
    (by decide) (by decide) (by decide)
  exact ⟨h1, h2⟩

/-- Claim C2 (counterexample): from a three-track queue with shuffle off and
track 0 current, `next()` selects and hands over a track (index 1), yet the
history remains empty — the selected index is not pushed onto the history,
refuting the claim that every selecting `next()` pushes it. -/
theorem next_push_counterexample :
    (sampleSeqQueue.next []).1.current = some 1 ∧
    ((sampleSeqQueue.next []).2).isSome = true ∧
    (sampleSeqQueue.next []).1.history.queue = [] := by decide

/-- Claim C2 (amended): only a shuffle-selected index is pushed onto the
history, and the push happens in `next_track`, before `replace` hands the
track to the player; a history replay advances the cursor without pushing,
and a sequential selection leaves the history unchanged. -/
theorem next_push_amended (q : Queue) (draws : List Nat) :
    (∀ v h', q.history.next = some (v, h') → ((q.next draws).1).history = h') ∧
    (q.history.next = none → q.shuffle = false → ((q.next draws).1).history = q.history) ∧
    (q.history.next = none → q.shuffle = true → ∀ i, q.next_track_shuffle draws = some i →
      ((q.next draws).1).history = q.history.push i) := by
  refine ⟨?_, ?_, ?_⟩
  · intro v h' hn
    rw [next_of_next_track _ _ _ _ (next_track_replay q draws v h' hn)]
    exact (replace_fields { q with history := h' } v).1
  · intro hn hsh
    have h2 := next_track_seq q draws hn hsh
    cases hs : q.next_track_sequential with
    | none =>
      rw [hs] at h2
      rw [next_of_next_track_none _ _ _ h2]
    | some idx =>
      rw [hs] at h2
      rw [next_of_next_track _ _ _ _ h2]
      exact (replace_fields q idx).1
  · intro hn hsh i hi
    rw [next_of_next_track _ _ _ _ (next_track_shuffle_push q draws hn hsh i hi)]
    exact (replace_fields { q with history := q.history.push i } i).1

theorem next_push_amended_witness :
    (sampleReplayQueue.next []).1.history = History.mk [0, 2] 1 ∧
    (sampleSeqQueue.next []).1.history = sampleSeqQueue.history ∧
    (sampleShuffleQueue.next [0]).1.history = sampleShuffleQueue.history.push 0 := by
  have h1 := (next_push_amended sampleReplayQueue []).1 2 (History.mk [0, 2] 1) (by decide)
  have h2 := (next_push_amended sampleSeqQueue []).2.1 (by decide) (by decide)
  have h3 := (next_push_amended sampleShuffleQueue [0]).2.2 (by decide) (by decide) 0 (by decide)
  exact ⟨h1, h2, h3⟩

/-- Claim C3: with at least two tracks, every index `next_track_shuffle`
returns differs from the currently-playing index, and the choice is uniform
over the remaining indices — conditioned on a single accepted draw, each
index other than the current one is produced by exactly one of the
equally-likely raw draws `0, …, len-1`; with exactly one track it returns
that track (index 0) again. -/
theorem shuffle_no_repeat (q : Queue) (draws : List Nat) :
    (2 ≤ q.tracks.length → ∀ i, q.next_track_shuffle draws = some i → q.current ≠ some i) ∧
    (2 ≤ q.tracks.length → ∀ c, q.current = some c → ∀ i, i < q.tracks.length → i ≠ c →
      ((Finset.range q.tracks.length).filter
        fun d => pickShuffle (some c) [d] = some i).card = 1) ∧
    (q.tracks.length = 1 → q.next_track_shuffle draws = some 0) := by
  refine ⟨?_, ?_, ?_⟩
  · intro h2 i hpick
    rw [Queue.next_track_shuffle, if_neg (by omega), if_neg (by omega)] at hpick
    exact pickShuffle_ne hpick
  · intro h2 c hc i hi hic
    have hset : ((Finset.range q.tracks.length).filter
        fun d => pickShuffle (some c) [d] = some i) = {i} := by
      ext d
      simp only [Finset.mem_filter, Finset.mem_range, Finset.mem_singleton]
      constructor
      · rintro ⟨-, hd⟩
        rw [pickShuffle] at hd
        by_cases hcd : c ≠ d
        · rw [if_pos hcd] at hd
          exact Option.some.inj hd
        · rw [if_neg hcd] at hd
          simp [pickShuffle] at hd
      · rintro rfl
        refine ⟨hi, ?_⟩
        rw [pickShuffle, if_pos (Ne.symm hic)]
    rw [hset, Finset.card_singleton]
  · intro h1
    rw [Queue.next_track_shuffle, if_neg (by omega), if_pos (by omega)]

theorem shuffle_no_repeat_witness :
    sampleShuffleQueue.next_track_shuffle [1, 1, 0] = some 0 ∧
    sampleShuffleQueue.current ≠ some 0 ∧
    ((Finset.range 3).filter fun d => pickShuffle (some 1) [d] = some 2).card = 1 ∧
    sampleSingleQueue.next_track_shuffle [] = some 0 := by
  have h1 := (shuffle_no_repeat sampleShuffleQueue [1, 1, 0]).1 (by decide) 0 (by decide)
  have h2 := (shuffle_no_repeat sampleShuffleQueue [1, 1, 0]).2.1 (by decide) 1 rfl 2
    (by decide) (by decide)
  have h3 := (shuffle_no_repeat sampleSingleQueue []).2.2 (by decide)
  exact ⟨by decide, h1, h2, h3⟩

/-- Claim C6: `select_idx i` fails with `OutOfBounds` exactly when
`i ≥ tracks.len()`, `select_path p` fails with `NoTrack p` exactly when no
track in the list has path `p`; on success both set the selected track as
current and clear the history; on failure the queue state (current track and
history included) is unchanged. -/
theorem select_spec (q : Queue) (i : Nat) (p : String) :
    ((q.select_idx i).2 = Except.error QueueError.OutOfBounds ↔ q.tracks.length ≤ i) ∧
    ((q.select_path p).2 = Except.error (QueueError.NoTrack p) ↔
      ∀ t ∈ q.tracks, t.path ≠ p) ∧
    (i < q.tracks.length →
      (q.select_idx i).1.current = some i ∧
      (q.select_idx i).1.history = History.empty ∧
      (q.select_idx i).2 = Except.ok (q.tracks.getD i ⟨""⟩)) ∧
    (∀ j, listPosition (fun t => t.path = p) q.tracks = some j →
      (q.select_path p).1.current = some j ∧
      (q.select_path p).1.history = History.empty ∧
      ∃ t, (q.select_path p).2 = Except.ok t ∧ t.path = p) ∧
    (q.tracks.length ≤ i → (q.select_idx i).1 = q) ∧
    ((∀ t ∈ q.tracks, t.path ≠ p) → (q.select_path p).1 = q) := by
  refine ⟨?_, ?_, ?_, ?_, ?_, ?_⟩
  · constructor
    · intro he
      by_contra hlt
      push_neg at hlt
      have hg : q.tracks[i]? = some (q.tracks.getD i ⟨""⟩) := by
        rw [List.getElem?_eq_getElem hlt, List.getD_eq_getElem _ _ hlt]
      rw [select_idx_ok q i _ hg] at he
      exact Except.noConfusion he
    · intro hle
      have hg : q.tracks[i]? = none := List.getElem?_eq_none hle
      rw [select_idx_oob q i hg]
  · constructor
    · intro he t ht hp
      cases hpos : listPosition (fun u => u.path = p) q.tracks with
      | none =>
        have := listPosition_eq_none_iff.1 hpos t ht
        simp [hp] at this
      | some j =>
        obtain ⟨u, hu, hpu⟩ := listPosition_get hpos
        rw [select_path_found q p j u hpos hu] at he
        exact Except.noConfusion he
    · intro hall
      have hpos : listPosition (fun u => u.path = p) q.tracks = none :=
        listPosition_eq_none_iff.2 (fun t ht => by simpa using hall t ht)
      rw [select_path_missing q p hpos]
  · intro hlt
    have hg : q.tracks[i]? = some (q.tracks.getD i ⟨""⟩) := by
      rw [List.getElem?_eq_getElem hlt, List.getD_eq_getElem _ _ hlt]
    rw [select_idx_ok q i _ hg]
    exact ⟨rfl, rfl, rfl⟩
  · intro j hpos
    obtain ⟨u, hu, hpu⟩ := listPosition_get hpos
    rw [select_path_found q p j u hpos hu]
    exact ⟨rfl, rfl, u, rfl, by simpa using hpu⟩
  · intro hle
    have hg : q.tracks[i]? = none := List.getElem?_eq_none hle
    rw [select_idx_oob q i hg]
  · intro hall
    have hpos : listPosition (fun u => u.path = p) q.tracks = none :=
      listPosition_eq_none_iff.2 (fun t ht => by simpa using hall t ht)
    rw [select_path_missing q p hpos]

theorem select_spec_witness :
    ((sampleSeqQueue.select_idx 5).2 = Except.error QueueError.OutOfBounds) ∧
    ((sampleSeqQueue.select_idx 5).1 = sampleSeqQueue) ∧
    ((sampleSeqQueue.select_idx 1).1.current = some 1) ∧
    ((sampleSeqQueue.select_idx 1).1.history = History.empty) ∧
    ((sampleSeqQueue.select_path "c").1.current = some 2) ∧
    ((sampleSeqQueue.select_path "z").1 = sampleSeqQueue) := by
  have h1 := (select_spec sampleSeqQueue 5 "z").1.2 (by decide)
  have h2 := (select_spec sampleSeqQueue 5 "z").2.2.2.2.1 (by decide)
  have h3 := (select_spec sampleSeqQueue 1 "z").2.2.1 (by decide)
  have h4 := (select_spec sampleSeqQueue 1 "c").2.2.2.1 2 (by decide)
  have h5 := (select_spec sampleSeqQueue 1 "z").2.2.2.2.2 (by decide)
  exact ⟨h1, h2, h3.1, h3.2.1, h4.1, h5⟩

theorem process_nil_msgs (p : Process) (data : List ℚ) :
    p.process [] data = p.render data := rfl

/-- Claim C7 (counterexample): with no active stream `Process::process`
returns without writing to `data` — the callback buffer keeps its prior
contents (here `[1]`) instead of being silenced, refuting the claim for the
no-stream case. -/
theorem process_silence_counterexample :
    (Process.new 48000).stream = none ∧
    ((Process.new 48000).process [] [1]).2.1 = [1] ∧ (1 : ℚ) ≠ 0 :=
  ⟨rfl, rfl, by norm_num⟩

/-- Claim C7 (amended): when `Process::process` runs with an active stream
and the done flag set, or the stream not ready, or status `Paused`, every
sample of the output buffer is set to silence (`0.0`) before returning; with
no active stream the function returns with `data` untouched. -/
theorem process_silence_amended (p : Process) (data : List ℚ) :
    (p.stream = none → (p.process [] data).2.1 = data) ∧
    (∀ s, p.stream = some s →
      (p.done = true ∨ s.ready = false ∨ p.status = PlaybackStatus.Paused) →
      (p.process [] data).2.1 = List.replicate data.length 0) := by
  constructor
  · intro hs
    rw [process_nil_msgs]
    simp only [Process.render, hs]
  · intro s hs hcond
    rw [process_nil_msgs]
    simp only [Process.render, hs]
    have hsil : Process.silence data = List.replicate data.length 0 :=
      List.map_const' data 0
    by_cases hdr : (p.done || !s.ready) = true
    · rw [if_pos hdr]
      exact hsil
    · rw [if_neg hdr]
      have hp : p.status = PlaybackStatus.Paused := by
        rcases hcond with hd | hr | hp
        · rw [hd] at hdr
          simp at hdr
        · rw [hr] at hdr
          simp at hdr
        · exact hp
      rw [if_pos hp]
      exact hsil

theorem process_silence_amended_witness :
    ((Process.new 48000).process [] [3, 4]).2.1 = [3, 4] ∧
    (samplePausedProcess.process [] [5, 6]).2.1 = [0, 0] := by
  have h1 := (process_silence_amended (Process.new 48000) [3, 4]).1 rfl
  have h2 := (process_silence_amended samplePausedProcess [5, 6]).2 sampleStream rfl
    (Or.inr (Or.inr rfl))
  exact ⟨h1, h2⟩

/-- Claim C8: the amplitude multiplier applied to each output sample is the
cube of the engine's gain, and the gain stored for volume `v` is `v / 100`,
so the effective multiplier is `(v / 100)^3`: `1.0` at stored volume `100`
and exactly `0.125` at stored volume `50`. -/
theorem gain_curve (p : Process) (s : DiskStream) (data : List ℚ) (v : Nat)
    (buf : List ℚ) (rest : List (List ℚ × List ℚ)) (fr : Nat)
    (hs : p.stream = some s) (hready : s.ready = true) (hdone : p.done = false)
    (hplay : p.status = PlaybackStatus.Play)
    (hvol : p.volume = (v : ℚ) / 100)
    (hfill : fillBuffer p.resampler s.blockSize p.buffer s.blocks data.length =
      FillResult.filled buf rest fr) :
    (p.process [] data).2.1 =
      (buf.take data.length).map (fun sample => sample * ((v : ℚ) / 100) ^ 3) ∧
    ((100 : ℚ) / 100) ^ 3 = 1 ∧ ((50 : ℚ) / 100) ^ 3 = 1 / 8 := by
  refine ⟨?_, by norm_num, by norm_num⟩
  rw [process_nil_msgs]
  simp only [Process.render, hs]
  rw [if_neg (by rw [hdone, hready]; simp)]
  rw [if_neg (by rw [hplay]; simp)]
  rw [hfill, hvol]

theorem gain_curve_witness :
    (sampleHalfVolProcess.process [] [0, 0]).2.1 = [1 / 8, 1 / 4] := by
  have h := gain_curve sampleHalfVolProcess sampleStream [0, 0] 50
    [1, 2] [([1, 2], [3, 4])] 0 rfl rfl rfl rfl (by norm_num [sampleHalfVolProcess]) rfl
  rw [h.1]
  norm_num

/-- Claim C9 (counterexample): with the muted flag set and stored volume 45,
`i_vol 10` stores 55 and sends gain `55 / 100 ≠ 0` to the engine — the claim
that the effective gain sent while muted is `0.0` regardless of stored-volume
changes is false. -/
theorem mute_gain_counterexample :
    sampleMutedPlayer.muted = true ∧
    (sampleMutedPlayer.i_vol 10).1.volume = 55 ∧
    (sampleMutedPlayer.i_vol 10).2 = [ToProcess.Volume ((55 : ℚ) / 100)] ∧
    ((55 : ℚ) / 100) ≠ 0 := by
  refine ⟨rfl, rfl, ?_, by norm_num⟩
  norm_num [Player.i_vol, sampleMutedPlayer, Player.new]

/-- Claim C9 (amended): the stored volume always holds the last requested
value (volume mutators store it regardless of the mute flag), `mute` never
mutates the stored volume, muting sends gain `0.0` and unmuting sends exactly
`stored_volume / 100`; but a volume change made while muted sends the new
`stored_volume / 100` to the engine rather than `0.0` — the zero gain
persists only until the next volume message. -/
theorem mute_volume_amended (p : Player) (amt v : Nat) :
    ((p.mute).1.volume = p.volume ∧ (p.mute).1.muted = !p.muted) ∧
    (p.muted = false → (p.mute).2 = [ToProcess.Volume 0]) ∧
    (p.muted = true → (p.mute).2 = [ToProcess.Volume ((p.volume : ℚ) / 100)]) ∧
    ((p.i_vol amt).1.volume = min 100 (p.volume + amt) ∧
      (p.i_vol amt).2 =
        [ToProcess.Volume (((min 100 (p.volume + amt) : Nat) : ℚ) / 100)]) ∧
    ((p.d_vol amt).1.volume = p.volume - amt ∧
      (p.d_vol amt).2 = [ToProcess.Volume (((p.volume - amt : Nat) : ℚ) / 100)]) ∧
    ((p.set_volume v).1.volume = v ∧
      (p.set_volume v).2 = [ToProcess.Volume ((v : ℚ) / 100)]) := by
  refine ⟨⟨rfl, rfl⟩, ?_, ?_, ⟨rfl, rfl⟩, ⟨rfl, rfl⟩, ⟨rfl, rfl⟩⟩
  · intro hm
    simp [Player.mute, hm]
  · intro hm
    simp [Player.mute, hm]

theorem mute_volume_amended_witness :
    (Player.new.mute).2 = [ToProcess.Volume 0] ∧
    (sampleMutedPlayer.mute).2 = [ToProcess.Volume ((45 : ℚ) / 100)] ∧
    (sampleMutedPlayer.mute).1.volume = 45 := by
  have h1 := (mute_volume_amended Player.new 0 0).2.1 rfl
  have h2 := (mute_volume_amended sampleMutedPlayer 0 0).2.2.1 rfl
  have h3 := (mute_volume_amended sampleMutedPlayer 0 0).1.1
  refine ⟨h1, ?_, h3⟩
  rw [h2]
  norm_num [sampleMutedPlayer, Player.new]

theorem History.mem_of_next (h : History) (v : Nat) (h' : History)
    (hn : h.next = some (v, h')) : v ∈ h.queue ∧ h'.queue = h.queue := by
  rw [History.next, Option.map_eq_some'] at hn
  obtain ⟨u, hu, heq⟩ := hn
  obtain ⟨h1, h2⟩ := Prod.mk.inj heq
  subst h1
  exact ⟨List.getElem?_mem hu, by rw [← h2]⟩

theorem History.mem_of_prev (h : History) (v : Nat) (h' : History)
    (hp : h.prev = some (v, h')) : v ∈ h.queue ∧ h'.queue = h.queue := by
  rw [History.prev] at hp
  cases hI : h.index with
  | zero => rw [hI] at hp; exact absurd hp (by simp)
  | succ i =>
    rw [hI] at hp
    rw [Option.map_eq_some'] at hp
    obtain ⟨u, hu, heq⟩ := hp
    obtain ⟨h1, h2⟩ := Prod.mk.inj heq
    subst h1
    exact ⟨List.getElem?_mem hu, by rw [← h2]⟩

theorem History.mem_push (h : History) (x v : Nat) (hx : x ∈ (h.push v).queue) :
    x ∈ h.queue ∨ x = v := by
  rw [History.push] at hx
  by_cases hdup : h.queue.getLast? = some v
  · rw [if_pos hdup] at hx
    exact Or.inl hx
  · rw [if_neg hdup] at hx
    rcases List.mem_append.1 hx with h1 | h1
    · by_cases hfull : h.queue.length = History.capacity
      · rw [if_pos hfull] at h1
        have h2 : x ∈ h.queue.rotate 1 := (List.dropLast_prefix _).subset h1
        exact Or.inl (List.mem_rotate.1 h2)
      · rw [if_neg hfull] at h1
        exact Or.inl h1
    · rcases List.mem_singleton.1 h1 with rfl
      exact Or.inr rfl

theorem inv_replace_any (q : Queue) (i : Nat) (hq : QueueInv q) :
    QueueInv ((q.replace i).1) := by
  cases hg : q.tracks[i]? with
  | none =>
    simp only [Queue.replace, hg]
    exact hq
  | some t =>
    have hi : i < q.tracks.length := (List.getElem?_eq_some.1 hg).1
    simp only [Queue.replace, hg]
    exact ⟨fun j hj => (Option.some.inj hj) ▸ hi, fun j hj => hq.2 j hj⟩

theorem last_track_sequential_lt (q : Queue) (hq : QueueInv q) (idx : Nat)
    (hs : q.last_track_sequential = some idx) : idx < q.tracks.length := by
  rw [Queue.last_track_sequential] at hs
  by_cases h0 : q.tracks.length = 0
  · rw [if_pos h0] at hs
    exact absurd hs (by simp)
  · rw [if_neg h0] at hs
    rw [Option.map_eq_some'] at hs
    obtain ⟨c, hc, heq⟩ := hs
    have hclt := hq.1 c hc
    by_cases hz : c = 0
    · rw [if_pos hz] at heq
      omega
    · rw [if_neg hz] at heq
      omega

theorem lastOp_prev (q : Queue) (v : Nat) (h' : History)
    (hp : q.history.prev = some (v, h')) :
    q.lastOp = ({ q with history := h' }).replace v := by
  simp only [Queue.lastOp, hp]

theorem lastOp_seq_some (q : Queue) (idx : Nat) (hp : q.history.prev = none)
    (hsh : q.shuffle = false) (hs : q.last_track_sequential = some idx) :
    q.lastOp = q.replace idx := by
  simp only [Queue.lastOp, hp, hsh, hs, Bool.not_false, if_pos]

theorem lastOp_seq_none (q : Queue) (hp : q.history.prev = none)
    (hsh : q.shuffle = false) (hs : q.last_track_sequential = none) :
    q.lastOp = (q, none) := by
  simp only [Queue.lastOp, hp, hsh, hs, Bool.not_false, if_pos]

theorem lastOp_shuffle_none (q : Queue) (hp : q.history.prev = none)
    (hsh : q.shuffle = true) : q.lastOp = (q, none) := by
  simp only [Queue.lastOp, hp, hsh, Bool.not_true, Bool.false_eq_true, if_false]

theorem next_track_shuffle_lt (q : Queue) (draws : List Nat) (i : Nat)
    (hwf : draws.all (fun d => d < q.tracks.length) = true)
    (hps : q.next_track_shuffle draws = some i) : i < q.tracks.length := by
  rw [Queue.next_track_shuffle] at hps
  by_cases h0 : q.tracks.length = 0
  · rw [if_pos h0] at hps
    exact absurd hps (by simp)
  · rw [if_neg h0] at hps
    by_cases h1 : q.tracks.length ≤ 1
    · rw [if_pos h1] at hps
      cases hps
      omega
    · rw [if_neg h1] at hps
      have hd := pickShuffle_mem hps
      simpa using List.all_eq_true.1 hwf i hd

theorem inv_step (q : Queue) (op : QueueOp) (hq : QueueInv q)
    (hwf : op.wf q = true) : QueueInv (q.step op) := by
  cases op with
  | queueDir path scan =>
    cases scan with
    | none => exact hq
    | some tracks =>
      exact ⟨fun i hi => Option.noConfusion hi, fun i hi => absurd hi (List.not_mem_nil i)⟩
  | selectIdx i =>
    show QueueInv (q.select_idx i).1
    cases hg : q.tracks[i]? with
    | none =>
      rw [select_idx_oob q i hg]
      exact hq
    | some t =>
      rw [select_idx_ok q i t hg]
      have hi : i < q.tracks.length := (List.getElem?_eq_some.1 hg).1
      exact ⟨fun j hj => (Option.some.inj hj) ▸ hi, fun j hj => absurd hj (List.not_mem_nil j)⟩
  | selectPath p =>
    show QueueInv (q.select_path p).1
    cases hpos : listPosition (fun t => t.path = p) q.tracks with
    | none =>
      rw [select_path_missing q p hpos]
      exact hq
    | some j =>
      obtain ⟨u, hu, hpu⟩ := listPosition_get hpos
      rw [select_path_found q p j u hpos hu]
      have hj : j < q.tracks.length := listPosition_lt_length hpos
      exact ⟨fun k hk => (Option.some.inj hk) ▸ hj, fun k hk => absurd hk (List.not_mem_nil k)⟩
  | nextStep draws =>
    show QueueInv (q.next draws).1
    cases hn : q.history.next with
    | some vh =>
      obtain ⟨v, h'⟩ := vh
      have hmem := History.mem_of_next q.history v h' hn
      rw [next_of_next_track _ _ _ _ (next_track_replay q draws v h' hn)]
      refine inv_replace_any _ _ ⟨fun i hi => hq.1 i hi, fun i hi => ?_⟩
      rw [show ({ q with history := h' } : Queue).history = h' from rfl, hmem.2] at hi
      exact hq.2 i hi
    | none =>
      cases hsh : q.shuffle with
      | false =>
        have h2 := next_track_seq q draws hn hsh
        cases hs : q.next_track_sequential with
        | none =>
          rw [hs] at h2
          rw [next_of_next_track_none _ _ _ h2]
          exact hq
        | some idx =>
          rw [hs] at h2
          rw [next_of_next_track _ _ _ _ h2]
          exact inv_replace_any _ _ hq
      | true =>
        cases hps : q.next_track_shuffle draws with
        | none =>
          have h2 : q.next_track draws = (none, q) := by
            simp only [Queue.next_track, hn, hsh, hps, Bool.not_true, Bool.false_eq_true,
              if_false]
          rw [next_of_next_track_none _ _ _ h2]
          exact hq
        | some i =>
          have hi : i < q.tracks.length :=
            next_track_shuffle_lt q draws i (by simpa [QueueOp.wf] using hwf) hps
          rw [next_of_next_track _ _ _ _ (next_track_shuffle_push q draws hn hsh i hps)]
          refine inv_replace_any _ _ ⟨fun j hj => hq.1 j hj, fun j hj => ?_⟩
          rcases History.mem_push q.history j i hj with h | h
          · exact hq.2 j h
          · exact h ▸ hi
  | lastStep =>
    show QueueInv q.lastOp.1
    cases hp : q.history.prev with
    | some vh =>
      obtain ⟨v, h'⟩ := vh
      have hmem := History.mem_of_prev q.history v h' hp
      rw [lastOp_prev q v h' hp]
      refine inv_replace_any _ _ ⟨fun i hi => hq.1 i hi, fun i hi => ?_⟩
      rw [show ({ q with history := h' } : Queue).history = h' from rfl, hmem.2] at hi
      exact hq.2 i hi
    | none =>
      cases hsh : q.shuffle with
      | false =>
        cases hs : q.last_track_sequential with
        | none =>
          rw [lastOp_seq_none q hp hsh hs]
          exact hq
        | some idx =>
          rw [lastOp_seq_some q idx hp hsh hs]
          exact inv_replace_any _ _ hq
      | true =>
        rw [lastOp_shuffle_none q hp hsh]
        exact hq
  | shuffleToggle =>
    exact ⟨fun i hi => hq.1 i hi, fun i hi => absurd hi (List.not_mem_nil i)⟩

theorem inv_steps (q : Queue) (ops : List QueueOp) (hq : QueueInv q)
    (hwf : q.wfSteps ops = true) : QueueInv (q.steps ops) := by
  induction ops generalizing q with
  | nil => exact hq
  | cons op ops ih =>
    rw [Queue.wfSteps, Bool.and_eq_true] at hwf
    exact ih _ (inv_step q op hq hwf.1) hwf.2

theorem inv_with_state (path : Option String) (tracks : List Track)
    (stateTrack : Option Track) (shuffle : Bool) :
    QueueInv (Queue.with_state path tracks stateTrack shuffle) := by
  unfold Queue.with_state
  cases hb : stateTrack.bind
      (fun cur => listPosition (fun t => t.path = cur.path) tracks) with
  | none =>
    exact ⟨fun i hi => Option.noConfusion hi, fun i hi => absurd hi (List.not_mem_nil i)⟩
  | some index =>
    obtain ⟨cur, hcur, hpos⟩ := Option.bind_eq_some.1 hb
    have hidx : index < tracks.length := listPosition_lt_length hpos
    have hpq : (History.empty.push index).queue = [index] := rfl
    refine ⟨fun i hi => (Option.some.inj hi) ▸ hidx, fun i hi => ?_⟩
    rw [hpq] at hi
    rcases List.mem_singleton.1 hi with rfl
    exact hidx

/-- Claim C10: starting from any `with_state`-restored queue and applying any
sequence of queue operations (`queue`, `select_idx`, `select_path`, `next`,
`last`, shuffle toggle) whose RNG draws are in range, whenever `current` is
`some i` the index is valid: `i < tracks.len()`.  In particular `queue()`
resets `current` and clears the history, never leaving stale indices. -/
theorem current_in_bounds (path : Option String) (tracks : List Track)
    (stateTrack : Option Track) (shuffle : Bool) (ops : List QueueOp)
    (hwf : (Queue.with_state path tracks stateTrack shuffle).wfSteps ops = true) :
    ∀ i, ((Queue.with_state path tracks stateTrack shuffle).steps ops).current = some i →
      i < ((Queue.with_state path tracks stateTrack shuffle).steps ops).tracks.length :=
  (inv_steps _ ops (inv_with_state path tracks stateTrack shuffle) hwf).1

theorem current_in_bounds_witness :
    (sampleInitQueue.steps sampleOps).current = some 0 ∧
    0 < (sampleInitQueue.steps sampleOps).tracks.length := by
  refine ⟨by decide, ?_⟩
  exact current_in_bounds (some "p") [⟨"a"⟩, ⟨"b"⟩, ⟨"c"⟩] (some ⟨"b"⟩) false sampleOps
    (by decide) 0 (by decide)
